import Mathlib

/-!
# Verification of the OCM `BaseStorage` record store

A shallow embedding of `src/ocm_base_storage.js` (class `BaseStorage`): the
in-memory record store with validation, id assignment, timestamps, change
notification, import/export, and the optional reversible persistence encoding
(`_compress` / `_decompress`, which are `JSON.stringify` / `JSON.parse`).

Modelling conventions:
* A JS value is `Val` (null, boolean, number, string, array, object).  Numbers
  are modelled as integers (the records this store manages carry integer or
  string fields; float arithmetic never occurs in the storage layer).
* A record (JS object) is `Item := List (String × Val)`: the insertion-ordered
  own-enumerable fields.  Object spread `{...a, ...b}` is `b` folded over `a`
  with `setField`, which updates an existing key in place or appends a new one,
  exactly as JS spread does.
* JS strict equality `===` is `strictEq`; two array/object values are compared
  by reference in JS, and records obtained from independent literals are
  distinct references, so the model makes `===` false on composite values.
  `undefined` (an absent field) is `none`; `undefined === undefined` is true.
* `new Date().toISOString()` is an explicit `now : String` argument;
  `_generateId()` is an explicit `genId : String` argument.  `create` calls
  `toISOString` twice in the same expression; the model passes the same `now`
  for both stamps.
* Mutation of `this.data` is explicit state passing: every operation returns
  the store it leaves behind, the notifications it emitted (`_notifyListeners`
  calls), and its result or the error it throws (`Except`).  An operation whose
  JS body catches and swallows errors (e.g. `bulkUpdate` returns `false`)
  accordingly has no error in its return type; its un-caught body is a separate
  definition.
* `_save` writes the persisted copy; it raises only on storage-quota /
  environment failures, which are outside the claims considered here, so the
  persistence write is not part of the state.
-/

namespace OCM

/-- A JS value as stored in records: null, boolean, (integer) number, string,
array or object. -/
inductive Val : Type where
  | vnull : Val
  | vbool : Bool → Val
  | vnum : Int → Val
  | vstr : String → Val
  | varr : List Val → Val
  | vobj : List (String × Val) → Val

mutual

/-- Structural (boolean) equality on `Val`. -/
def Val.beq : Val → Val → Bool
  | .vnull, .vnull => true
  | .vbool a, .vbool b => a == b
  | .vnum a, .vnum b => a == b
  | .vstr a, .vstr b => a == b
  | .varr xs, .varr ys => Val.beqL xs ys
  | .vobj fs, .vobj gs => Val.beqF fs gs
  | _, _ => false

/-- Structural equality on value lists. -/
def Val.beqL : List Val → List Val → Bool
  | [], [] => true
  | x :: xs, y :: ys => Val.beq x y && Val.beqL xs ys
  | _, _ => false

/-- Structural equality on field lists. -/
def Val.beqF : List (String × Val) → List (String × Val) → Bool
  | [], [] => true
  | (k, v) :: fs, (k', v') :: gs => k == k' && Val.beq v v' && Val.beqF fs gs
  | _, _ => false

end

mutual

def Val.beq_iff : ∀ a b : Val, Val.beq a b = true ↔ a = b
  | .vnull, b => by cases b <;> simp [Val.beq]
  | .vbool x, b => by cases b <;> simp [Val.beq]
  | .vnum x, b => by cases b <;> simp [Val.beq]
  | .vstr x, b => by cases b <;> simp [Val.beq]
  | .varr xs, b => by
      cases b <;> simp [Val.beq]
      exact Val.beqL_iff xs _
  | .vobj fs, b => by
      cases b <;> simp [Val.beq]
      exact Val.beqF_iff fs _

def Val.beqL_iff : ∀ xs ys : List Val, Val.beqL xs ys = true ↔ xs = ys
  | [], ys => by cases ys <;> simp [Val.beqL]
  | x :: xs, ys => by
      cases ys with
      | nil => simp [Val.beqL]
      | cons y ys =>
          simp [Val.beqL, Bool.and_eq_true, Val.beq_iff x y, Val.beqL_iff xs ys]

def Val.beqF_iff : ∀ fs gs : List (String × Val), Val.beqF fs gs = true ↔ fs = gs
  | [], gs => by cases gs <;> simp [Val.beqF]
  | (k, v) :: fs, gs => by
      cases gs with
      | nil => simp [Val.beqF]
      | cons g gs =>
          obtain ⟨k', v'⟩ := g
          simp [Val.beqF, Bool.and_eq_true, Val.beq_iff v v', Val.beqF_iff fs gs,
            and_assoc]

end

instance : DecidableEq Val := fun a b => decidable_of_iff _ (Val.beq_iff a b)

/-- A record / JS object: insertion-ordered field list. -/
abbrev Item := List (String × Val)

/-- JS strict equality `===` on values.  Arrays and objects are compared by
reference in JS; values appearing in distinct records here originate from
distinct literals, so the model takes `===` to be false on them. -/
def strictEq : Val → Val → Bool
  | .vnull, .vnull => true
  | .vbool a, .vbool b => a == b
  | .vnum a, .vnum b => a == b
  | .vstr a, .vstr b => a == b
  | _, _ => false

/-- `===` lifted to possibly-absent values: `undefined === undefined` is true,
`undefined` equals nothing else. -/
def strictEqOpt : Option Val → Option Val → Bool
  | none, none => true
  | some a, some b => strictEq a b
  | _, _ => false

/-- JS truthiness test, on a possibly-absent value (used by
`itemData.id || this._generateId()`). -/
def truthy : Option Val → Bool
  | none => false
  | some .vnull => false
  | some (.vbool b) => b
  | some (.vnum n) => !(n == 0)
  | some (.vstr s) => !s.isEmpty
  | some (.varr _) => true
  | some (.vobj _) => true

/-- Field read `item.k`: the first binding of the key (JS objects have unique
keys, so any binding is the binding). -/
def getField : Item → String → Option Val
  | [], _ => none
  | (k', v) :: rest, k => if k' == k then some v else getField rest k

/-- Field write as performed by spread / property assignment: an existing key
keeps its position and takes the new value; a fresh key is appended. -/
def setField : Item → String → Val → Item
  | [], k, v => [(k, v)]
  | (k', v') :: rest, k, v =>
      if k' == k then (k', v) :: rest else (k', v') :: setField rest k v

/-- Object spread `{...base, ...upd}`: fold `upd`'s fields over `base`. -/
def spreadOver (base : Item) (upd : Item) : Item :=
  upd.foldl (fun acc kv => setField acc kv.1 kv.2) base

/-- The errors `BaseStorage` throws, identified by throw site (the JS code
throws generic `Error`s whose message distinguishes the kind). -/
inductive Err : Type where
  | validationErr : String → Err
  | notFound : Val → Err
  | duplicateId : Val → Err
  | importFormat : Err
deriving DecidableEq

/-- Payload of a `_notifyListeners` call: a single record (`create`, `update`,
`delete`) or a record list (`bulkUpdate`, `clear`, `import`). -/
inductive Payload : Type where
  | one : Item → Payload
  | many : List Item → Payload
deriving DecidableEq

/-- One `_notifyListeners(action, data)` call: the action kind, its payload and
the store's `storageKey` (the third argument passed to each listener). -/
structure Notif : Type where
  action : String
  payload : Payload
  storeName : String
deriving DecidableEq

/-- A `BaseStorage` instance: its key, whether `options.validation` is on, the
in-memory `this.data`, and the subscribed listeners (`this.listeners`, a JS
`Set` of callbacks, modelled as a duplicate-free list of listener ids). -/
structure Store : Type where
  storageKey : String
  validation : Bool
  data : List Item
  listeners : List Nat
deriving DecidableEq

/-- A validation rule: the overridable `validate(data)` method of a subclass,
returning the message of the error it throws, if any.  (`_validateData` first
checks that the argument is an object; `Item` is an object by construction, so
that check cannot fire in the model.) -/
abbrev Validator := Item → Option String

/-- `BaseStorage.validate`, the base-class implementation: an empty method that
accepts everything. -/
def baseValidate : Validator := fun _ => none

/-- `_validateData(data)` under `options.validation`: returns the validation
error thrown, if any. -/
def _validateData (validate : Validator) (st : Store) (d : Item) : Option String :=
  if st.validation then validate d else none

/-- `getAll()`: a copy of `this.data` (`[...this.data]`). -/
def getAll (st : Store) : List Item := st.data

/-- The predicate `item.id === id` used by `getById`, `findIndex` and `exists`. -/
def idMatches (idv : Val) (item : Item) : Bool :=
  strictEqOpt (getField item "id") (some idv)

/-- `getById(id)`: first record whose `id` strictly equals `id`, else `null`. -/
def getById (st : Store) (idv : Val) : Option Item :=
  st.data.find? (idMatches idv)

/-- `getWhere(predicate)`: all records satisfying the predicate, in order. -/
def getWhere (st : Store) (p : Item → Bool) : List Item := st.data.filter p

/-- `this.data.findIndex(item => item.id === id)` together with the record
found: index and record of the first match. -/
def findByIdIdx (idv : Val) : List Item → Option (Nat × Item)
  | [] => none
  | item :: rest =>
      if idMatches idv item then some (0, item)
      else (findByIdIdx idv rest).map (fun p => (p.1 + 1, p.2))

/-- `count()`: `this.data.length`. -/
def count (st : Store) : Nat := st.data.length

/-- `exists(id)`: `this.data.some(item => item.id === id)`. -/
def existsId (st : Store) (idv : Val) : Bool := st.data.any (idMatches idv)

/-- `subscribe(listener)`: add to the listener `Set` (a `Set` ignores an
already-present element). -/
def subscribe (st : Store) (l : Nat) : Store :=
  if l ∈ st.listeners then st else { st with listeners := st.listeners ++ [l] }

/-- The listener invocations a `_notifyListeners(action, data)` call performs:
each subscribed listener, in order, applied to `(action, data, storageKey)`. -/
def _notifyListeners (st : Store) (ns : List Notif) : List (Nat × Notif) :=
  ns.flatMap (fun n => st.listeners.map (fun l => (l, n)))

/-- The id `create` assigns: `itemData.id || this._generateId()`. -/
def assignedId (itemData : Item) (genId : String) : Val :=
  if truthy (getField itemData "id") then (getField itemData "id").getD .vnull
  else .vstr genId

/-- The record `create` builds:
`{...itemData, id: itemData.id || _generateId(), createdAt: now, updatedAt: now}`.
(An `id`/`createdAt`/`updatedAt` key already present in `itemData` keeps its
position and is overwritten; a missing one is appended — JS object-literal
semantics.) -/
def mkCreated (itemData : Item) (genId now : String) : Item :=
  setField (setField (setField itemData "id" (assignedId itemData genId))
    "createdAt" (.vstr now)) "updatedAt" (.vstr now)

/-- `create(itemData)`: validate, build the new record, reject a duplicate id,
append, notify.  Returns the store left behind, the notifications emitted, and
the created record or the error thrown (the `catch` re-throws). -/
def create (validate : Validator) (st : Store) (itemData : Item)
    (genId now : String) : Store × List Notif × Except Err Item :=
  match _validateData validate st itemData with
  | some msg => (st, [], .error (.validationErr msg))
  | none =>
      let newItem := mkCreated itemData genId now
      let newId := (getField newItem "id").getD .vnull
      if (getById st newId).isSome then
        (st, [], .error (.duplicateId newId))
      else
        ({ st with data := st.data ++ [newItem] },
         [⟨"create", .one newItem, st.storageKey⟩],
         .ok newItem)

/-- The record `update` builds:
`{...this.data[index], ...updates, id, updatedAt: now}` — the partial's fields
win over the existing record's, then `id` is pinned back to the parameter and
`updatedAt` re-stamped. -/
def mkUpdated (existing : Item) (updates : Item) (idv : Val) (now : String) : Item :=
  setField (setField (spreadOver existing updates) "id" idv) "updatedAt" (.vstr now)

/-- `update(id, updates)`: find the record, merge, validate the merged record,
replace in place, notify.  Throws `notFound` / a validation error, re-thrown by
the `catch`. -/
def update (validate : Validator) (st : Store) (idv : Val) (updates : Item)
    (now : String) : Store × List Notif × Except Err Item :=
  match findByIdIdx idv st.data with
  | none => (st, [], .error (.notFound idv))
  | some (index, existing) =>
      let updatedItem := mkUpdated existing updates idv now
      match _validateData validate st updatedItem with
      | some msg => (st, [], .error (.validationErr msg))
      | none =>
          ({ st with data := st.data.set index updatedItem },
           [⟨"update", .one updatedItem, st.storageKey⟩],
           .ok updatedItem)

/-- `delete(id)`: remove the first record with the id if present (`splice`),
notify; returns whether a record was removed.  (Its `catch` returns `false`
without re-throwing; nothing in the model's body can throw.) -/
def delete (st : Store) (idv : Val) : Store × List Notif × Bool :=
  match findByIdIdx idv st.data with
  | none => (st, [], false)
  | some (index, deletedItem) =>
      ({ st with data := st.data.eraseIdx index },
       [⟨"delete", .one deletedItem, st.storageKey⟩],
       true)

/-- The `items.map(...)` body of `bulkUpdate`: validate each item (when
validation is on) and re-stamp its `updatedAt`; the first validation error
aborts the whole map by throwing. -/
def stampAll (validate : Validator) (st : Store) (now : String) :
    List Item → Except Err (List Item)
  | [] => .ok []
  | item :: rest =>
      match _validateData validate st item with
      | some msg => .error (.validationErr msg)
      | none =>
          match stampAll validate st now rest with
          | .error e => .error e
          | .ok rest' => .ok (setField item "updatedAt" (.vstr now) :: rest')

/-- `bulkUpdate(items)` before its `try`/`catch`: replace `this.data` wholesale
with the validated, re-stamped items and notify. -/
def bulkUpdateBody (validate : Validator) (st : Store) (items : List Item)
    (now : String) : Except Err (Store × List Notif) :=
  match stampAll validate st now items with
  | .error e => .error e
  | .ok validatedItems =>
      .ok ({ st with data := validatedItems },
           [⟨"bulkUpdate", .many validatedItems, st.storageKey⟩])

/-- `bulkUpdate(items)`: the body's error is caught, logged and converted to a
`false` return — it does not reach the caller. -/
def bulkUpdate (validate : Validator) (st : Store) (items : List Item)
    (now : String) : Store × List Notif × Bool :=
  match bulkUpdateBody validate st items now with
  | .ok (st', ns) => (st', ns, true)
  | .error _ => (st, [], false)

/-- `clear()`: empty the store and notify with an empty payload. -/
def clear (st : Store) : Store × List Notif :=
  ({ st with data := [] }, [⟨"clear", .many [], st.storageKey⟩])

/-- The object `export()` returns:
`{storageKey, version (from config, default '2.0.0'), exportedAt, data: this.data}`. -/
structure ExportSnap : Type where
  storageKey : String
  version : String
  exportedAt : String
  data : List Item
deriving DecidableEq

/-- `export()`. -/
def exportOp (st : Store) (version exportedAt : String) : ExportSnap :=
  ⟨st.storageKey, version, exportedAt, st.data⟩

/-- The shapes `import`'s argument can take, as far as its format check
(`!exportedData || !Array.isArray(exportedData.data)`) distinguishes them:
a nullish argument, an argument whose `data` is not an array, or an argument
whose `data` is an array of records. -/
inductive ImportArg : Type where
  | nullish : ImportArg
  | noArray : ImportArg
  | records : List Item → ImportArg
deriving DecidableEq

/-- Passing an `export()` result to `import`: its `data` is an array. -/
def ExportSnap.asArg (s : ExportSnap) : ImportArg := .records s.data

/-- `import(exportedData, merge)`: format check; with `merge` append exactly
the incoming records whose `id` is not already present (a `Set` of existing
ids, then `filter`); without `merge` replace `this.data` with a copy of the
incoming array; notify with the resulting data.  The format error is re-thrown
by the `catch`. -/
def importOp (st : Store) (arg : ImportArg) (merge : Bool) :
    Store × List Notif × Except Err Unit :=
  match arg with
  | .nullish => (st, [], .error .importFormat)
  | .noArray => (st, [], .error .importFormat)
  | .records incoming =>
      let newData :=
        if merge then
          st.data ++ incoming.filter (fun item =>
            !(st.data.any (fun ex => strictEqOpt (getField ex "id") (getField item "id"))))
        else incoming
      ({ st with data := newData },
       [⟨"import", .many newData, st.storageKey⟩],
       .ok ())

/-- A validation rule that rejects everything; subclasses such as
`ClientStorage.validate` (required-field checks) behave like this on records
missing their required fields. -/
def rejectAll : Validator := fun _ => some "required field missing"

/-- The `id` fields of a record sequence, in order (`undefined` when absent). -/
def idsOf (l : List Item) : List (Option Val) :=
  l.map (fun item => getField item "id")

/-- No two entries of the key list are `===`-equal. -/
def nodupKeys : List (Option Val) → Bool
  | [] => true
  | a :: rest => !(rest.any (strictEqOpt a)) && nodupKeys rest

/-- The spec invariant "no two records in the same store share an `id`". -/
def nodupIds (l : List Item) : Bool := nodupKeys (idsOf l)

/-! ## The persistence encoding: `_compress` / `_decompress`

`_compress(data)` is `JSON.stringify(data)` and `_decompress(s)` is
`JSON.parse(s)` with a `catch` that returns `[]`.  The model implements the
JSON grammar fragment these can exchange for the record sequences of this
store, with three documented restrictions relative to full ECMA JSON, none of
which affects an encode/decode round trip:
* numbers are integers (`Val.vnum : Int`), printed and parsed in plain decimal
  — `JSON.stringify` prints integral JS numbers exactly this way;
* the printer escapes `"` and `\`, and a *valid* string (`strOk`) contains no
  control characters, so no other escape is ever produced; the parser accepts
  exactly those two escapes and rejects raw control characters, as
  `JSON.parse` does;
* the parser does not skip whitespace; `JSON.stringify` emits none, so the
  two agree on every encoded form. -/

/-- The decimal digit character for `d < 10`. -/
def digitChar (d : Nat) : Char := Char.ofNat ('0'.toNat + d)

/-- Decimal digits of a natural number, most significant first. -/
def encNat (n : Nat) : List Char :=
  if n < 10 then [digitChar n]
  else encNat (n / 10) ++ [digitChar (n % 10)]
decreasing_by omega

/-- Decimal form of an integer: optional `-`, then digits. -/
def encInt (i : Int) : List Char :=
  if i < 0 then '-' :: encNat i.natAbs else encNat i.toNat

/-- `JSON.stringify`'s escaping of one string character (strings valid for the
round trip contain no control characters, so `\"` and `\\` are the only
escapes produced). -/
def escapeChar (c : Char) : List Char :=
  if c == '"' then ['\\', '"']
  else if c == '\\' then ['\\', '\\']
  else [c]

/-- The escaped body of a string literal. -/
def encStrBody (s : String) : List Char := s.data.flatMap escapeChar

/-- A quoted, escaped string literal. -/
def encStr (s : String) : List Char := '"' :: (encStrBody s ++ ['"'])

mutual

/-- `JSON.stringify` on a value (no whitespace, as `JSON.stringify` emits). -/
def encVal : Val → List Char
  | .vnull => ['n', 'u', 'l', 'l']
  | .vbool true => ['t', 'r', 'u', 'e']
  | .vbool false => ['f', 'a', 'l', 's', 'e']
  | .vnum i => encInt i
  | .vstr s => encStr s
  | .varr xs => '[' :: (encItems xs ++ [']'])
  | .vobj fs => '{' :: (encFields fs ++ ['}'])

/-- Comma-separated array elements. -/
def encItems : List Val → List Char
  | [] => []
  | [x] => encVal x
  | x :: y :: rest => encVal x ++ ',' :: encItems (y :: rest)

/-- Comma-separated `"key":value` object members. -/
def encFields : List (String × Val) → List Char
  | [] => []
  | [(k, v)] => encStr k ++ ':' :: encVal v
  | (k, v) :: g :: rest => encStr k ++ ':' :: encVal v ++ ',' :: encFields (g :: rest)

end

/-- `JSON.stringify(v)`. -/
def jsonStringify (v : Val) : String := ⟨encVal v⟩

/-- Is `c` a decimal digit? -/
def isDigitCh (c : Char) : Bool := '0' ≤ c && c ≤ '9'

/-- Numeric value of a digit character. -/
def digitVal (c : Char) : Nat := c.toNat - '0'.toNat

/-- Split a leading run of digits off the input. -/
def grabDigits : List Char → List Char × List Char
  | c :: cs =>
      if isDigitCh c then
        let (ds, r) := grabDigits cs
        (c :: ds, r)
      else ([], c :: cs)
  | [] => ([], [])

/-- The natural number a digit run denotes. -/
def digitsNat (ds : List Char) : Nat := ds.foldl (fun a c => a * 10 + digitVal c) 0

/-- Parse an integer literal: optional `-`, then at least one digit. -/
def parseInt : List Char → Option (Int × List Char)
  | '-' :: cs =>
      match grabDigits cs with
      | ([], _) => none
      | (ds, r) => some (-(digitsNat ds : Int), r)
  | cs =>
      match grabDigits cs with
      | ([], _) => none
      | (ds, r) => some ((digitsNat ds : Int), r)

/-- Parse a string-literal body after the opening quote: characters up to the
unescaped closing quote, honouring the `\"` and `\\` escapes and rejecting raw
control characters (as `JSON.parse` does). -/
def parseStrBody : List Char → Option (List Char × List Char)
  | [] => none
  | '"' :: rest => some ([], rest)
  | '\\' :: e :: rest =>
      if e == '"' || e == '\\' then
        (parseStrBody rest).map (fun p => (e :: p.1, p.2))
      else none
  | c :: rest =>
      if c.toNat < 32 then none
      else (parseStrBody rest).map (fun p => (c :: p.1, p.2))

mutual

/-- `JSON.parse`'s value parser (fuel-driven recursion; `jsonParse` supplies
fuel exceeding what any input can consume). -/
def parseVal : Nat → List Char → Option (Val × List Char)
  | 0, _ => none
  | fuel + 1, cs =>
      match cs with
      | 'n' :: 'u' :: 'l' :: 'l' :: rest => some (.vnull, rest)
      | 't' :: 'r' :: 'u' :: 'e' :: rest => some (.vbool true, rest)
      | 'f' :: 'a' :: 'l' :: 's' :: 'e' :: rest => some (.vbool false, rest)
      | '"' :: rest => (parseStrBody rest).map (fun p => (.vstr ⟨p.1⟩, p.2))
      | '[' :: rest =>
          match rest with
          | ']' :: r2 => some (.varr [], r2)
          | _ => (parseItems fuel rest).map (fun p => (.varr p.1, p.2))
      | '{' :: rest =>
          match rest with
          | '}' :: r2 => some (.vobj [], r2)
          | _ => (parseFields fuel rest).map (fun p => (.vobj p.1, p.2))
      | other => (parseInt other).map (fun p => (.vnum p.1, p.2))

/-- One-or-more comma-separated array elements, then `]`. -/
def parseItems : Nat → List Char → Option (List Val × List Char)
  | 0, _ => none
  | fuel + 1, cs =>
      match parseVal fuel cs with
      | none => none
      | some (v, r) =>
          match r with
          | ',' :: r2 =>
              match parseItems fuel r2 with
              | some (vs, r3) => some (v :: vs, r3)
              | none => none
          | ']' :: r2 => some ([v], r2)
          | _ => none

/-- One-or-more comma-separated `"key":value` members, then `}`. -/
def parseFields : Nat → List Char → Option (List (String × Val) × List Char)
  | 0, _ => none
  | fuel + 1, cs =>
      match cs with
      | '"' :: r0 =>
          match parseStrBody r0 with
          | none => none
          | some (kcs, r1) =>
              match r1 with
              | ':' :: r2 =>
                  match parseVal fuel r2 with
                  | none => none
                  | some (v, r3) =>
                      match r3 with
                      | ',' :: r4 =>
                          match parseFields fuel r4 with
                          | some (fs, r5) => some ((⟨kcs⟩, v) :: fs, r5)
                          | none => none
                      | '}' :: r4 => some ([(⟨kcs⟩, v)], r4)
                      | _ => none
              | _ => none
      | _ => none

end

/-- `JSON.parse(s)`: parse a complete document, requiring the whole input to
be consumed. -/
def jsonParse (s : String) : Option Val :=
  match parseVal (s.data.length + 1) s.data with
  | some (v, []) => some v
  | _ => none

/-- The JS array value `this.data` denotes (an array of record objects). -/
def recordsVal (data : List Item) : Val := .varr (data.map Val.vobj)

/-- `_compress(data)`: `JSON.stringify(data)`. -/
def _compress (data : List Item) : String := jsonStringify (recordsVal data)

/-- `_decompress(compressedData)`: `JSON.parse(compressedData)`, with the
`catch` turning a parse failure into `[]`. -/
def _decompress (s : String) : Val := (jsonParse s).getD (.varr [])

/-- A string free of control characters (encodable without the escapes the
model omits). -/
def strOk (s : String) : Bool := s.data.all (fun c => 32 ≤ c.toNat)

mutual

/-- A value the modelled codec fragment covers: every string (key or value)
control-character-free. -/
def validVal : Val → Bool
  | .vnull => true
  | .vbool _ => true
  | .vnum _ => true
  | .vstr s => strOk s
  | .varr xs => validItems xs
  | .vobj fs => validFields fs

/-- All elements valid. -/
def validItems : List Val → Bool
  | [] => true
  | x :: rest => validVal x && validItems rest

/-- All keys and values valid. -/
def validFields : List (String × Val) → Bool
  | [] => true
  | (k, v) :: rest => strOk k && validVal v && validFields rest

end

/-- A valid record sequence: all its records are valid objects. -/
def validRecords (data : List Item) : Bool := validItems (data.map Val.vobj)

mutual

/-- Fuel sufficient for `parseVal` to parse this value's encoding. -/
def fuelVal : Val → Nat
  | .vnull => 1
  | .vbool _ => 1
  | .vnum _ => 1
  | .vstr _ => 1
  | .varr xs => fuelItems xs + 1
  | .vobj fs => fuelFields fs + 1

/-- Fuel sufficient for `parseItems` on this element list's encoding. -/
def fuelItems : List Val → Nat
  | [] => 1
  | [x] => fuelVal x + 1
  | x :: y :: rest => max (fuelVal x) (fuelItems (y :: rest)) + 1

/-- Fuel sufficient for `parseFields` on this member list's encoding. -/
def fuelFields : List (String × Val) → Nat
  | [] => 1
  | [(_, v)] => fuelVal v + 1
  | (_, v) :: g :: rest => max (fuelVal v) (fuelFields (g :: rest)) + 1

end

/-- A remainder that cannot extend a decimal literal: empty or headed by a
non-digit.  (`,`, `]`, `}` and end of input all qualify.) -/
def numStop : List Char → Bool
  | [] => true
  | c :: _ => !isDigitCh c

/-! ## Helper lemmas: strict equality -/

theorem strictEq_eq {a b : Val} (h : strictEq a b = true) : a = b := by
  cases a <;> cases b <;> simp_all [strictEq]

theorem strictEqOpt_eq {a b : Option Val} (h : strictEqOpt a b = true) : a = b := by
  cases a <;> cases b <;> simp_all [strictEqOpt]
  exact strictEq_eq h

theorem idMatches_getField {idv : Val} {item : Item} (h : idMatches idv item = true) :
    getField item "id" = some idv :=
  strictEqOpt_eq h

/-! ## Helper lemmas: fields -/

theorem getField_setField (it : Item) (k0 k : String) (v : Val) :
    getField (setField it k0 v) k = if k0 == k then some v else getField it k := by
  induction it with
  | nil => simp [setField, getField]
  | cons hd rest ih =>
      obtain ⟨k', v'⟩ := hd
      by_cases hk : k' == k0
      · have : k' = k0 := by simpa using hk
        subst this
        simp only [setField, if_pos hk, getField]
        by_cases hkk : k' == k <;> simp [hkk]
      · simp only [setField, if_neg hk, getField]
        by_cases hkk : k' == k
        · have : k' = k := by simpa using hkk
          subst this
          have : ¬(k0 == k') := by
            intro hc
            exact hk (by simpa using (by simpa using hc : k0 = k').symm)
          simp [hkk, this]
        · simp [hkk, ih]

theorem getField_setField_self (it : Item) (k : String) (v : Val) :
    getField (setField it k v) k = some v := by
  simp [getField_setField]

theorem getField_setField_ne (it : Item) {k0 k : String} (v : Val) (h : k0 ≠ k) :
    getField (setField it k0 v) k = getField it k := by
  simp [getField_setField, h]

theorem getField_append (l1 l2 : Item) (k : String) :
    getField (l1 ++ l2) k = (getField l1 k).or (getField l2 k) := by
  induction l1 with
  | nil => simp [getField]
  | cons hd rest ih =>
      obtain ⟨k', v'⟩ := hd
      by_cases hk : k' == k <;> simp [getField, hk, ih]

theorem getField_spreadOver (base upd : Item) (k : String) :
    getField (spreadOver base upd) k = (getField upd.reverse k).or (getField base k) := by
  induction upd generalizing base with
  | nil => simp [spreadOver, getField]
  | cons hd rest ih =>
      obtain ⟨k0, v0⟩ := hd
      have step : spreadOver base ((k0, v0) :: rest) = spreadOver (setField base k0 v0) rest := rfl
      rw [step, ih, List.reverse_cons, getField_append, getField_setField, Option.or_assoc]
      by_cases hk : k0 == k <;> simp [getField, hk]

/-! ## Helper lemmas: lookup by id -/

theorem findByIdIdx_spec {idv : Val} {l : List Item} {i : Nat} {r : Item}
    (h : findByIdIdx idv l = some (i, r)) :
    l[i]? = some r ∧ idMatches idv r = true := by
  induction l generalizing i with
  | nil => simp [findByIdIdx] at h
  | cons hd rest ih =>
      rw [findByIdIdx] at h
      split at h
      · rename_i hm
        simp only [Option.some.injEq, Prod.mk.injEq] at h
        obtain ⟨rfl, rfl⟩ := h
        exact ⟨by simp, hm⟩
      · match hf : findByIdIdx idv rest with
        | none => rw [hf] at h; simp at h
        | some (j, r') =>
            rw [hf] at h
            simp only [Option.map, Option.some.injEq, Prod.mk.injEq] at h
            obtain ⟨hji, rfl⟩ := h
            subst hji
            obtain ⟨h1, h2⟩ := ih hf
            exact ⟨by simpa using h1, h2⟩

theorem find?_isSome_eq_any {α : Type} (p : α → Bool) (l : List α) :
    (l.find? p).isSome = l.any p := by
  rw [Bool.eq_iff_iff, List.find?_isSome, List.any_eq_true]

theorem getById_isSome_iff_existsId (st : Store) (idv : Val) :
    (getById st idv).isSome = existsId st idv :=
  find?_isSome_eq_any (idMatches idv) st.data

/-! ## Helper lemmas: id uniqueness -/

theorem any_of_sublist {l' l : List (Option Val)} {p : Option Val → Bool}
    (hs : List.Sublist l' l) (h : l'.any p = true) : l.any p = true := by
  rw [List.any_eq_true] at h ⊢
  obtain ⟨x, hx, hp⟩ := h
  exact ⟨x, hs.subset hx, hp⟩

theorem nodupKeys_sublist {l' l : List (Option Val)} (hs : List.Sublist l' l)
    (h : nodupKeys l = true) : nodupKeys l' = true := by
  induction hs with
  | slnil => exact h
  | cons a hs ih =>
      rw [nodupKeys, Bool.and_eq_true] at h
      exact ih h.2
  | cons₂ a hs ih =>
      rw [nodupKeys, Bool.and_eq_true] at h ⊢
      refine ⟨?_, ih h.2⟩
      have := h.1
      simp only [Bool.not_eq_true'] at this ⊢
      cases hany : List.any _ (strictEqOpt a) with
      | false => rfl
      | true => rw [any_of_sublist hs hany] at this; exact this

theorem nodupKeys_append (l1 l2 : List (Option Val)) :
    nodupKeys (l1 ++ l2)
      = (nodupKeys l1 && nodupKeys l2 && l1.all (fun a => !(l2.any (strictEqOpt a)))) := by
  induction l1 with
  | nil => simp [nodupKeys]
  | cons a rest ih =>
      rw [List.cons_append]
      simp only [nodupKeys, List.any_append, ih, List.all_cons]
      generalize List.any rest (strictEqOpt a) = A
      generalize List.any l2 (strictEqOpt a) = B
      generalize nodupKeys rest = C
      generalize nodupKeys l2 = D
      generalize List.all rest (fun x => !(List.any l2 (strictEqOpt x))) = E
      cases A <;> cases B <;> cases C <;> cases D <;> cases E <;> rfl

theorem idsOf_append (l1 l2 : List Item) : idsOf (l1 ++ l2) = idsOf l1 ++ idsOf l2 := by
  simp [idsOf]

theorem idsOf_set (l : List Item) (i : Nat) (x : Item) :
    idsOf (l.set i x) = (idsOf l).set i (getField x "id") := by
  simp [idsOf, List.map_set]

theorem set_getElem_self {α : Type} (l : List α) (i : Nat) (a : α)
    (h : l[i]? = some a) : l.set i a = l := by
  induction l generalizing i with
  | nil => simp at h
  | cons hd rest ih =>
      cases i with
      | zero => simp_all
      | succ j =>
          simp only [List.getElem?_cons_succ] at h
          simp [List.set_cons_succ, ih j h]

/-! ## Helper lemmas: the records `create` and `update` build -/

theorem mkCreated_id (d : Item) (g n : String) :
    getField (mkCreated d g n) "id" = some (assignedId d g) := by
  unfold mkCreated
  rw [getField_setField_ne _ _ (by decide), getField_setField_ne _ _ (by decide),
    getField_setField_self]

theorem mkCreated_createdAt (d : Item) (g n : String) :
    getField (mkCreated d g n) "createdAt" = some (.vstr n) := by
  unfold mkCreated
  rw [getField_setField_ne _ _ (by decide), getField_setField_self]

theorem mkCreated_updatedAt (d : Item) (g n : String) :
    getField (mkCreated d g n) "updatedAt" = some (.vstr n) := by
  unfold mkCreated
  rw [getField_setField_self]

theorem mkUpdated_id (ex ups : Item) (idv : Val) (now : String) :
    getField (mkUpdated ex ups idv now) "id" = some idv := by
  unfold mkUpdated
  rw [getField_setField_ne _ _ (by decide), getField_setField_self]

theorem mkUpdated_updatedAt (ex ups : Item) (idv : Val) (now : String) :
    getField (mkUpdated ex ups idv now) "updatedAt" = some (.vstr now) := by
  unfold mkUpdated
  rw [getField_setField_self]

theorem mkUpdated_other (ex ups : Item) (idv : Val) (now : String) {k : String}
    (h1 : k ≠ "id") (h2 : k ≠ "updatedAt") :
    getField (mkUpdated ex ups idv now) k
      = (getField ups.reverse k).or (getField ex k) := by
  unfold mkUpdated
  rw [getField_setField_ne _ _ (Ne.symm h2), getField_setField_ne _ _ (Ne.symm h1),
    getField_spreadOver]

/-! ## Helper lemmas: operation result shapes -/

theorem stampAll_ok {validate : Validator} {st : Store} {now : String}
    {items out : List Item} (h : stampAll validate st now items = .ok out) :
    out = items.map (fun item => setField item "updatedAt" (.vstr now)) := by
  induction items generalizing out with
  | nil =>
      rw [stampAll] at h
      simpa using h.symm
  | cons item rest ih =>
      rw [stampAll] at h
      cases hv : _validateData validate st item with
      | some msg => rw [hv] at h; simp at h
      | none =>
          rw [hv] at h
          cases hr : stampAll validate st now rest with
          | error e => rw [hr] at h; simp at h
          | ok rest' =>
              rw [hr] at h
              simp only [Except.ok.injEq] at h
              rw [List.map_cons, ← ih hr, h]

theorem create_ok {validate : Validator} {st : Store} {d : Item} {g n : String}
    {st' : Store} {ns : List Notif} {item : Item}
    (h : create validate st d g n = (st', ns, .ok item)) :
    item = mkCreated d g n ∧
    st' = { st with data := st.data ++ [item] } ∧
    ns = [⟨"create", .one item, st.storageKey⟩] ∧
    _validateData validate st d = none ∧
    existsId st (assignedId d g) = false := by
  unfold create at h
  cases hv : _validateData validate st d with
  | some msg => rw [hv] at h; simp at h
  | none =>
      rw [hv] at h
      simp only at h
      split at h
      · simp at h
      · rename_i hdup
        simp only [Prod.mk.injEq, Except.ok.injEq] at h
        obtain ⟨hst, hns, hit⟩ := h
        subst hit
        refine ⟨rfl, hst.symm, hns.symm, rfl, ?_⟩
        rw [← getById_isSome_iff_existsId]
        have : (getField (mkCreated d g n) "id").getD .vnull = assignedId d g := by
          rw [mkCreated_id]; rfl
        rw [← this]
        simpa using hdup

theorem create_error_rollback {validate : Validator} {st : Store} {d : Item}
    {g n : String} {st' : Store} {ns : List Notif} {e : Err}
    (h : create validate st d g n = (st', ns, .error e)) : st' = st ∧ ns = [] := by
  unfold create at h
  cases hv : _validateData validate st d with
  | some msg =>
      rw [hv] at h
      simp only [Prod.mk.injEq] at h
      exact ⟨h.1.symm, h.2.1.symm⟩
  | none =>
      rw [hv] at h
      simp only at h
      split at h
      · simp only [Prod.mk.injEq] at h
        exact ⟨h.1.symm, h.2.1.symm⟩
      · simp at h

theorem update_ok {validate : Validator} {st : Store} {idv : Val} {ups : Item}
    {now : String} {st' : Store} {ns : List Notif} {item : Item}
    (h : update validate st idv ups now = (st', ns, .ok item)) :
    ∃ i r, findByIdIdx idv st.data = some (i, r) ∧
      item = mkUpdated r ups idv now ∧
      st' = { st with data := st.data.set i item } ∧
      ns = [⟨"update", .one item, st.storageKey⟩] ∧
      _validateData validate st item = none := by
  unfold update at h
  cases hf : findByIdIdx idv st.data with
  | none => rw [hf] at h; simp at h
  | some p =>
      obtain ⟨i, r⟩ := p
      rw [hf] at h
      simp only at h
      cases hv : _validateData validate st (mkUpdated r ups idv now) with
      | some msg => rw [hv] at h; simp at h
      | none =>
          rw [hv] at h
          simp only [Prod.mk.injEq, Except.ok.injEq] at h
          obtain ⟨hst, hns, hit⟩ := h
          subst hit
          exact ⟨i, r, rfl, rfl, hst.symm, hns.symm, hv⟩

theorem update_error_rollback {validate : Validator} {st : Store} {idv : Val}
    {ups : Item} {now : String} {st' : Store} {ns : List Notif} {e : Err}
    (h : update validate st idv ups now = (st', ns, .error e)) : st' = st ∧ ns = [] := by
  unfold update at h
  cases hf : findByIdIdx idv st.data with
  | none =>
      rw [hf] at h
      simp only [Prod.mk.injEq] at h
      exact ⟨h.1.symm, h.2.1.symm⟩
  | some p =>
      obtain ⟨i, r⟩ := p
      rw [hf] at h
      simp only at h
      cases hv : _validateData validate st (mkUpdated r ups idv now) with
      | some msg =>
          rw [hv] at h
          simp only [Prod.mk.injEq] at h
          exact ⟨h.1.symm, h.2.1.symm⟩
      | none => rw [hv] at h; simp at h

/-! ## Helper lemmas: the decimal codec -/

theorem digitVal_digitChar {d : Nat} (h : d < 10) : digitVal (digitChar d) = d := by
  interval_cases d <;> decide

theorem isDigitCh_digitChar {d : Nat} (h : d < 10) : isDigitCh (digitChar d) = true := by
  interval_cases d <;> decide

theorem encNat_ne_nil (n : Nat) : encNat n ≠ [] := by
  rw [encNat]
  split <;> simp

theorem encNat_all_digits (n : Nat) : ∀ c ∈ encNat n, isDigitCh c = true := by
  induction n using Nat.strong_induction_on with
  | _ n ih =>
      rw [encNat]
      split
      · intro c hc
        rw [List.mem_singleton] at hc
        subst hc
        exact isDigitCh_digitChar (by omega)
      · intro c hc
        rw [List.mem_append] at hc
        rcases hc with hc | hc
        · exact ih (n / 10) (by omega) c hc
        · rw [List.mem_singleton] at hc
          subst hc
          exact isDigitCh_digitChar (Nat.mod_lt _ (by omega))

theorem grabDigits_stop {cs : List Char} (h : numStop cs = true) :
    grabDigits cs = ([], cs) := by
  cases cs with
  | nil => rfl
  | cons c t =>
      have hc : isDigitCh c = false := by simpa [numStop] using h
      simp [grabDigits, hc]

theorem grabDigits_run {ds : List Char} (hds : ∀ c ∈ ds, isDigitCh c = true)
    {rest : List Char} (hrest : grabDigits rest = ([], rest)) :
    grabDigits (ds ++ rest) = (ds, rest) := by
  induction ds with
  | nil => simpa using hrest
  | cons c t ih =>
      have hc : isDigitCh c = true := hds c (by simp)
      have ht := ih (fun x hx => hds x (by simp [hx]))
      simp [grabDigits, hc, ht]

theorem digitsNat_snoc (ds : List Char) (c : Char) :
    digitsNat (ds ++ [c]) = digitsNat ds * 10 + digitVal c := by
  simp [digitsNat, List.foldl_append]

theorem digitsNat_encNat (n : Nat) : digitsNat (encNat n) = n := by
  induction n using Nat.strong_induction_on with
  | _ n ih =>
      rw [encNat]
      split
      · rename_i h
        simp only [digitsNat, List.foldl_cons, List.foldl_nil]
        rw [Nat.zero_mul, Nat.zero_add, digitVal_digitChar h]
      · rename_i h
        rw [digitsNat_snoc, ih (n / 10) (by omega), digitVal_digitChar (Nat.mod_lt _ (by omega))]
        omega

theorem encNat_head (n : Nat) :
    ∃ c t, encNat n = c :: t ∧ isDigitCh c = true := by
  cases henc : encNat n with
  | nil => exact absurd henc (encNat_ne_nil n)
  | cons c t =>
      exact ⟨c, t, rfl, encNat_all_digits n c (by rw [henc]; simp)⟩

theorem digit_ne_minus {c : Char} (h : isDigitCh c = true) : c ≠ '-' := by
  intro hc
  subst hc
  exact absurd h (by decide)

theorem parseInt_encInt (i : Int) {rest : List Char} (hr : numStop rest = true) :
    parseInt (encInt i ++ rest) = some (i, rest) := by
  by_cases hneg : i < 0
  · have harg : encInt i ++ rest = '-' :: (encNat i.natAbs ++ rest) := by
      simp [encInt, hneg]
    rw [harg]
    have hgrab : grabDigits (encNat i.natAbs ++ rest) = (encNat i.natAbs, rest) :=
      grabDigits_run (encNat_all_digits _) (grabDigits_stop hr)
    simp only [parseInt, hgrab]
    obtain ⟨c, t, henc, -⟩ := encNat_head i.natAbs
    rw [henc]
    simp only
    rw [← henc, digitsNat_encNat]
    simp only [Option.some.injEq, Prod.mk.injEq]
    exact ⟨by omega, trivial⟩
  · obtain ⟨c, t, henc, hc⟩ := encNat_head i.toNat
    have hcm := digit_ne_minus hc
    have harg : encInt i ++ rest = c :: (t ++ rest) := by
      simp [encInt, hneg, henc]
    rw [harg]
    have hgrab : grabDigits (c :: (t ++ rest)) = (c :: t, rest) := by
      have := grabDigits_run (encNat_all_digits i.toNat) (grabDigits_stop hr)
      rwa [henc, List.cons_append] at this
    rw [parseInt.eq_def]
    split
    · rename_i cs heq
      exact absurd (by simpa using congrArg List.head? heq) (by simpa using hcm)
    · rw [hgrab]
      simp only
      rw [← henc, digitsNat_encNat]
      simp only [Option.some.injEq, Prod.mk.injEq]
      exact ⟨by omega, trivial⟩

/-! ## Helper lemmas: the string codec -/

theorem parseStrBody_escape (c : Char) (hc : 32 ≤ c.toNat) (tail : List Char) :
    parseStrBody (escapeChar c ++ tail)
      = (parseStrBody tail).map (fun p => (c :: p.1, p.2)) := by
  unfold escapeChar
  by_cases h1 : c = '"'
  · subst h1
    simp [parseStrBody]
  · by_cases h2 : c = '\\'
    · subst h2
      simp [parseStrBody]
    · rw [if_neg (by simpa using h1), if_neg (by simpa using h2), List.singleton_append,
        parseStrBody.eq_def]
      have hlt : ¬(c.toNat < 32) := by omega
      simp [h1, h2, hlt]

theorem parseStrBody_enc (cs : List Char) (h : ∀ c ∈ cs, 32 ≤ c.toNat)
    (rest : List Char) :
    parseStrBody (cs.flatMap escapeChar ++ '"' :: rest) = some (cs, rest) := by
  induction cs with
  | nil => simp [parseStrBody]
  | cons c t ih =>
      rw [List.flatMap_cons, List.append_assoc, parseStrBody_escape c (h c (by simp)),
        ih (fun x hx => h x (by simp [hx]))]
      rfl

/-! ## Helper lemmas: leading characters of encoded values -/

theorem digit_head_facts {c : Char} (h : isDigitCh c = true) :
    c ≠ 'n' ∧ c ≠ 't' ∧ c ≠ 'f' ∧ c ≠ '"' ∧ c ≠ '[' ∧ c ≠ '{' ∧ c ≠ ']' ∧ c ≠ '}' := by
  refine ⟨?_, ?_, ?_, ?_, ?_, ?_, ?_, ?_⟩ <;>
    (intro hq; subst hq; exact absurd h (by decide))

theorem encVal_head (v : Val) : ∃ c t, encVal v = c :: t ∧ c ≠ ']' ∧ c ≠ '}' := by
  cases v with
  | vnull => exact ⟨'n', _, rfl, by decide, by decide⟩
  | vbool b => cases b with
      | true => exact ⟨'t', _, rfl, by decide, by decide⟩
      | false => exact ⟨'f', _, rfl, by decide, by decide⟩
  | vstr s => exact ⟨'"', _, rfl, by decide, by decide⟩
  | varr xs => exact ⟨'[', _, rfl, by decide, by decide⟩
  | vobj fs => exact ⟨'{', _, rfl, by decide, by decide⟩
  | vnum i =>
      by_cases hneg : i < 0
      · refine ⟨'-', encNat i.natAbs, ?_, by decide, by decide⟩
        simp [encVal, encInt, hneg]
      · obtain ⟨c, t, henc, hc⟩ := encNat_head i.toNat
        obtain ⟨-, -, -, -, -, -, h7, h8⟩ := digit_head_facts hc
        refine ⟨c, t, ?_, h7, h8⟩
        simp [encVal, encInt, hneg, henc]

theorem encItems_cons_decomp (x : Val) (xs : List Val) :
    ∃ tl, encItems (x :: xs) = encVal x ++ tl := by
  cases xs with
  | nil => exact ⟨[], by simp [encItems]⟩
  | cons y ys => exact ⟨_, rfl⟩

/-! ## Helper lemmas: parser step reductions -/

theorem parseVal_num_step (f : Nat) (c : Char) (t : List Char)
    (hn : c ≠ 'n') (ht : c ≠ 't') (hf : c ≠ 'f') (hq : c ≠ '"')
    (hb : c ≠ '[') (hc2 : c ≠ '{') :
    parseVal (f + 1) (c :: t) = (parseInt (c :: t)).map (fun p => (.vnum p.1, p.2)) := by
  rw [parseVal.eq_def]
  simp [hn, ht, hf, hq, hb, hc2]

theorem parseVal_arr_step (f : Nat) (c : Char) (t : List Char) (hc : c ≠ ']') :
    parseVal (f + 1) ('[' :: (c :: t))
      = (parseItems f (c :: t)).map (fun p => (.varr p.1, p.2)) := by
  rw [parseVal.eq_def]
  simp [hc]

theorem parseVal_obj_step (f : Nat) (c : Char) (t : List Char) (hc : c ≠ '}') :
    parseVal (f + 1) ('{' :: (c :: t))
      = (parseFields f (c :: t)).map (fun p => (.vobj p.1, p.2)) := by
  rw [parseVal.eq_def]
  simp [hc]

theorem parseVal_str_step (f : Nat) (r : List Char) :
    parseVal (f + 1) ('"' :: r) = (parseStrBody r).map (fun p => (.vstr ⟨p.1⟩, p.2)) := by
  rw [parseVal.eq_def]
  rfl

theorem parseItems_step (f : Nat) (cs : List Char) :
    parseItems (f + 1) cs
      = (match parseVal f cs with
         | none => none
         | some (v, r) =>
             match r with
             | ',' :: r2 =>
                 (match parseItems f r2 with
                  | some (vs, r3) => some (v :: vs, r3)
                  | none => none)
             | ']' :: r2 => some ([v], r2)
             | _ => none) := rfl

theorem parseFields_step (f : Nat) (cs : List Char) :
    parseFields (f + 1) cs
      = (match cs with
         | '"' :: r0 =>
             match parseStrBody r0 with
             | none => none
             | some (kcs, r1) =>
                 match r1 with
                 | ':' :: r2 =>
                     match parseVal f r2 with
                     | none => none
                     | some (v, r3) =>
                         match r3 with
                         | ',' :: r4 =>
                             (match parseFields f r4 with
                              | some (fs, r5) => some ((⟨kcs⟩, v) :: fs, r5)
                              | none => none)
                         | '}' :: r4 => some ([(⟨kcs⟩, v)], r4)
                         | _ => none
                 | _ => none
         | _ => none) := rfl

/-! ## The codec round trip -/

theorem fuelVal_pos (v : Val) : 1 ≤ fuelVal v := by
  cases v <;> simp [fuelVal]

theorem fuelItems_pos (xs : List Val) : 1 ≤ fuelItems xs := by
  cases xs with
  | nil => simp [fuelItems]
  | cons x ys => cases ys <;> simp [fuelItems]

theorem fuelFields_pos (fs : List (String × Val)) : 1 ≤ fuelFields fs := by
  cases fs with
  | nil => simp [fuelFields]
  | cons g gs =>
      obtain ⟨k, v⟩ := g
      cases gs <;> simp [fuelFields]

mutual

theorem rt_val : ∀ (v : Val) (fuel : Nat) (rest : List Char),
    validVal v = true → fuelVal v ≤ fuel → numStop rest = true →
    parseVal fuel (encVal v ++ rest) = some (v, rest)
  | .vnull, fuel, rest, _, hfu, _ => by
      cases fuel with
      | zero => exact absurd (le_trans (fuelVal_pos _) hfu) (by decide)
      | succ f => rfl
  | .vbool true, fuel, rest, _, hfu, _ => by
      cases fuel with
      | zero => exact absurd (le_trans (fuelVal_pos _) hfu) (by decide)
      | succ f => rfl
  | .vbool false, fuel, rest, _, hfu, _ => by
      cases fuel with
      | zero => exact absurd (le_trans (fuelVal_pos _) hfu) (by decide)
      | succ f => rfl
  | .vnum i, fuel, rest, _, hfu, hrest => by
      cases fuel with
      | zero => exact absurd (le_trans (fuelVal_pos _) hfu) (by decide)
      | succ f =>
          have henc2 : encVal (.vnum i) ++ rest = encInt i ++ rest := rfl
          by_cases hneg : i < 0
          · have harg : encInt i ++ rest = '-' :: (encNat i.natAbs ++ rest) := by
              simp [encInt, hneg]
            rw [henc2, harg,
              parseVal_num_step f '-' _ (by decide) (by decide) (by decide) (by decide)
                (by decide) (by decide),
              ← harg, parseInt_encInt i hrest]
            rfl
          · obtain ⟨c, t, henc, hc⟩ := encNat_head i.toNat
            obtain ⟨h1, h2, h3, h4, h5, h6, -, -⟩ := digit_head_facts hc
            have harg : encInt i ++ rest = c :: (t ++ rest) := by
              simp [encInt, hneg, henc]
            rw [henc2, harg, parseVal_num_step f c _ h1 h2 h3 h4 h5 h6,
              ← harg, parseInt_encInt i hrest]
            rfl
  | .vstr s, fuel, rest, hval, hfu, _ => by
      cases fuel with
      | zero => exact absurd (le_trans (fuelVal_pos _) hfu) (by decide)
      | succ f =>
          have harg : encVal (.vstr s) ++ rest
              = '"' :: (s.data.flatMap escapeChar ++ '"' :: rest) := by
            simp [encVal, encStr, encStrBody]
          have hok : ∀ c ∈ s.data, 32 ≤ c.toNat := by
            have hstr : strOk s = true := hval
            rw [strOk, List.all_eq_true] at hstr
            exact fun c hc => of_decide_eq_true (hstr c hc)
          rw [harg, parseVal_str_step, parseStrBody_enc s.data hok rest]
          rfl
  | .varr [], fuel, rest, _, hfu, _ => by
      cases fuel with
      | zero => exact absurd (le_trans (fuelVal_pos _) hfu) (by decide)
      | succ f => rfl
  | .varr (x :: xs), fuel, rest, hval, hfu, _ => by
      cases fuel with
      | zero => exact absurd (le_trans (fuelVal_pos _) hfu) (by decide)
      | succ f =>
          obtain ⟨c0, t0, hx, hc0, -⟩ := encVal_head x
          obtain ⟨tl, htl⟩ := encItems_cons_decomp x xs
          have hcons : encItems (x :: xs) ++ ']' :: rest
              = c0 :: (t0 ++ (tl ++ ']' :: rest)) := by
            rw [htl, hx]
            simp
          have harg : encVal (.varr (x :: xs)) ++ rest
              = '[' :: (encItems (x :: xs) ++ ']' :: rest) := by
            simp [encVal]
          have hvi : validItems (x :: xs) = true := hval
          have hfi : fuelItems (x :: xs) ≤ f := by
            have hstep : fuelItems (x :: xs) + 1 ≤ f + 1 := hfu
            omega
          rw [harg, hcons, parseVal_arr_step f c0 _ hc0, ← hcons,
            rt_items x xs f rest hvi hfi]
          rfl
  | .vobj [], fuel, rest, _, hfu, _ => by
      cases fuel with
      | zero => exact absurd (le_trans (fuelVal_pos _) hfu) (by decide)
      | succ f => rfl
  | .vobj ((k, v) :: fs), fuel, rest, hval, hfu, _ => by
      cases fuel with
      | zero => exact absurd (le_trans (fuelVal_pos _) hfu) (by decide)
      | succ f =>
          have hT : ∃ T, encFields ((k, v) :: fs) ++ '}' :: rest = '"' :: T := by
            cases fs with
            | nil =>
                exact ⟨encStrBody k ++ '"' :: ':' :: (encVal v ++ '}' :: rest),
                  by simp [encFields, encStr]⟩
            | cons g gs =>
                exact ⟨encStrBody k ++ '"' :: ':' :: (encVal v
                    ++ ',' :: (encFields (g :: gs) ++ '}' :: rest)),
                  by simp [encFields, encStr]⟩
          obtain ⟨T, hT⟩ := hT
          have harg : encVal (.vobj ((k, v) :: fs)) ++ rest
              = '{' :: (encFields ((k, v) :: fs) ++ '}' :: rest) := by
            simp [encVal]
          have hvf : validFields ((k, v) :: fs) = true := hval
          have hff : fuelFields ((k, v) :: fs) ≤ f := by
            have hstep : fuelFields ((k, v) :: fs) + 1 ≤ f + 1 := hfu
            omega
          rw [harg, hT, parseVal_obj_step f '"' _ (by decide), ← hT,
            rt_fields k v fs f rest hvf hff]
          rfl
termination_by v _ _ _ _ _ => sizeOf v

theorem rt_items : ∀ (x : Val) (xs : List Val) (fuel : Nat) (rest : List Char),
    validItems (x :: xs) = true → fuelItems (x :: xs) ≤ fuel →
    parseItems fuel (encItems (x :: xs) ++ ']' :: rest) = some (x :: xs, rest)
  | x, [], fuel, rest, hval, hfu => by
      cases fuel with
      | zero => exact absurd (le_trans (fuelItems_pos _) hfu) (by decide)
      | succ f =>
          have hvx : validVal x = true := by
            have hsplit : (validVal x && validItems []) = true := hval
            rw [Bool.and_eq_true] at hsplit
            exact hsplit.1
          have hfx : fuelVal x ≤ f := by
            have hstep : fuelVal x + 1 ≤ f + 1 := hfu
            omega
          have harg : encItems [x] ++ ']' :: rest = encVal x ++ ']' :: rest := by
            simp [encItems]
          rw [harg, parseItems_step, rt_val x f (']' :: rest) hvx hfx (by rfl)]
          rfl
  | x, y :: ys, fuel, rest, hval, hfu => by
      cases fuel with
      | zero => exact absurd (le_trans (fuelItems_pos _) hfu) (by decide)
      | succ f =>
          have hsplit : (validVal x && validItems (y :: ys)) = true := hval
          rw [Bool.and_eq_true] at hsplit
          have hstep : max (fuelVal x) (fuelItems (y :: ys)) + 1 ≤ f + 1 := hfu
          have hfx : fuelVal x ≤ f := by omega
          have hfy : fuelItems (y :: ys) ≤ f := by omega
          have harg : encItems (x :: y :: ys) ++ ']' :: rest
              = encVal x ++ ',' :: (encItems (y :: ys) ++ ']' :: rest) := by
            simp [encItems]
          rw [harg, parseItems_step,
            rt_val x f (',' :: (encItems (y :: ys) ++ ']' :: rest)) hsplit.1 hfx (by rfl)]
          simp only
          rw [rt_items y ys f rest hsplit.2 hfy]
termination_by x xs _ _ _ _ => sizeOf x + sizeOf xs

theorem rt_fields : ∀ (k : String) (v : Val) (fs : List (String × Val))
    (fuel : Nat) (rest : List Char),
    validFields ((k, v) :: fs) = true → fuelFields ((k, v) :: fs) ≤ fuel →
    parseFields fuel (encFields ((k, v) :: fs) ++ '}' :: rest) = some ((k, v) :: fs, rest)
  | k, v, [], fuel, rest, hval, hfu => by
      cases fuel with
      | zero => exact absurd (le_trans (fuelFields_pos _) hfu) (by decide)
      | succ f =>
          have hsplit : (strOk k && validVal v && validFields []) = true := hval
          rw [Bool.and_eq_true, Bool.and_eq_true] at hsplit
          have hkok : ∀ c ∈ k.data, 32 ≤ c.toNat := by
            have hstr := hsplit.1.1
            rw [strOk, List.all_eq_true] at hstr
            exact fun c hc => of_decide_eq_true (hstr c hc)
          have hfx : fuelVal v ≤ f := by
            have hstep : fuelVal v + 1 ≤ f + 1 := hfu
            omega
          have harg : encFields [(k, v)] ++ '}' :: rest
              = '"' :: (k.data.flatMap escapeChar
                  ++ '"' :: (':' :: (encVal v ++ '}' :: rest))) := by
            simp [encFields, encStr, encStrBody]
          rw [harg, parseFields_step]
          simp only
          rw [parseStrBody_enc k.data hkok]
          simp only
          rw [rt_val v f ('}' :: rest) hsplit.1.2 hfx (by rfl)]
          rfl
  | k, v, (k2, v2) :: gs, fuel, rest, hval, hfu => by
      cases fuel with
      | zero => exact absurd (le_trans (fuelFields_pos _) hfu) (by decide)
      | succ f =>
          have hsplit : (strOk k && validVal v && validFields ((k2, v2) :: gs)) = true := hval
          rw [Bool.and_eq_true, Bool.and_eq_true] at hsplit
          have hkok : ∀ c ∈ k.data, 32 ≤ c.toNat := by
            have hstr := hsplit.1.1
            rw [strOk, List.all_eq_true] at hstr
            exact fun c hc => of_decide_eq_true (hstr c hc)
          have hstep : max (fuelVal v) (fuelFields ((k2, v2) :: gs)) + 1 ≤ f + 1 := hfu
          have hfx : fuelVal v ≤ f := by omega
          have hfg : fuelFields ((k2, v2) :: gs) ≤ f := by omega
          have harg : encFields ((k, v) :: (k2, v2) :: gs) ++ '}' :: rest
              = '"' :: (k.data.flatMap escapeChar
                  ++ '"' :: (':' :: (encVal v
                      ++ ',' :: (encFields ((k2, v2) :: gs) ++ '}' :: rest)))) := by
            simp [encFields, encStr, encStrBody]
          rw [harg, parseFields_step]
          simp only
          rw [parseStrBody_enc k.data hkok]
          simp only
          rw [rt_val v f (',' :: (encFields ((k2, v2) :: gs) ++ '}' :: rest))
              hsplit.1.2 hfx (by rfl)]
          simp only
          rw [rt_fields k2 v2 gs f rest hsplit.2 hfg]
termination_by _ v fs _ _ _ _ => sizeOf v + sizeOf fs

end

/-! ## Fuel sufficiency for `jsonParse`'s fuel choice -/

mutual

theorem fuelVal_le : ∀ v : Val, fuelVal v ≤ (encVal v).length
  | .vnull => by simp [fuelVal, encVal]
  | .vbool true => by simp [fuelVal, encVal]
  | .vbool false => by simp [fuelVal, encVal]
  | .vnum i => by
      have hne : encInt i ≠ [] := by
        unfold encInt
        split
        · simp
        · exact encNat_ne_nil _
      have hpos : 0 < (encInt i).length := List.length_pos.mpr hne
      simp only [fuelVal, encVal]
      omega
  | .vstr s => by
      simp only [fuelVal, encVal, encStr, List.length_cons]
      omega
  | .varr xs => by
      have h := fuelItems_le xs
      simp only [fuelVal, encVal, List.length_cons, List.length_append]
      omega
  | .vobj fs => by
      have h := fuelFields_le fs
      simp only [fuelVal, encVal, List.length_cons, List.length_append]
      omega
termination_by v => sizeOf v

theorem fuelItems_le : ∀ xs : List Val, fuelItems xs ≤ (encItems xs).length + 1
  | [] => by simp [fuelItems, encItems]
  | [x] => by
      have h := fuelVal_le x
      simp only [fuelItems, encItems]
      omega
  | x :: y :: rest => by
      have h1 := fuelVal_le x
      have h2 := fuelItems_le (y :: rest)
      simp only [fuelItems, encItems, List.length_append, List.length_cons]
      omega
termination_by xs => sizeOf xs

theorem fuelFields_le : ∀ fs : List (String × Val), fuelFields fs ≤ (encFields fs).length + 1
  | [] => by simp [fuelFields, encFields]
  | [(k, v)] => by
      have h := fuelVal_le v
      simp only [fuelFields, encFields, List.length_append, List.length_cons]
      omega
  | (k, v) :: g :: rest => by
      have h1 := fuelVal_le v
      have h2 := fuelFields_le (g :: rest)
      simp only [fuelFields, encFields, List.length_append, List.length_cons]
      omega
termination_by fs => sizeOf fs

end

/-! ## The claims -/

/-- **C1**, counterexample.  The claim says every mutating operation preserves
"no two records share an `id`" from any state that satisfies it.  `bulkUpdate`
replaces the sequence with its argument after stamping `updatedAt`, with no
duplicate-id check: from the empty (trivially duplicate-free) store, a
`bulkUpdate` whose argument repeats an `id` succeeds and leaves two records
with the same `id`. -/
theorem c1_counterexample :
    nodupIds (Store.mk "s" false [] []).data = true ∧
    (bulkUpdate baseValidate (Store.mk "s" false [] [])
        [[("id", Val.vstr "a")], [("id", Val.vstr "a")]] "t").2.2 = true ∧
    nodupIds (bulkUpdate baseValidate (Store.mk "s" false [] [])
        [[("id", Val.vstr "a")], [("id", Val.vstr "a")]] "t").1.data = false := by
  decide

/-- **C1** (amended): from a state with pairwise-distinct record ids, `create`,
`update`, `delete` and `clear` always preserve the invariant; `bulkUpdate` and
`import` (either merge mode) preserve it provided the supplied records
themselves carry pairwise-distinct ids — without that proviso they can
introduce duplicates, as the counterexample shows. -/
theorem c1_unique_ids_preserved (validate : Validator) (st : Store)
    (h : nodupIds st.data = true) :
    (∀ d g n st' ns item, create validate st d g n = (st', ns, .ok item) →
        nodupIds st'.data = true) ∧
    (∀ idv ups now st' ns item, update validate st idv ups now = (st', ns, .ok item) →
        nodupIds st'.data = true) ∧
    (∀ idv, nodupIds (delete st idv).1.data = true) ∧
    nodupIds (clear st).1.data = true ∧
    (∀ items now, nodupIds items = true →
        nodupIds (bulkUpdate validate st items now).1.data = true) ∧
    (∀ incoming merge, nodupIds incoming = true →
        nodupIds (importOp st (.records incoming) merge).1.data = true) := by
  refine ⟨?_, ?_, ?_, ?_, ?_, ?_⟩
  · -- create appends a record whose id passed the duplicate check
    intro d g n st' ns item hc
    obtain ⟨hitem, hst, -, -, hex⟩ := create_ok hc
    subst hitem hst
    unfold nodupIds
    rw [idsOf_append, nodupKeys_append]
    unfold existsId at hex
    rw [List.any_eq_false] at hex
    have h2 : (idsOf st.data).all
        (fun a => !((idsOf [mkCreated d g n]).any (strictEqOpt a))) = true := by
      rw [List.all_eq_true]
      intro a ha
      obtain ⟨it, hit, rfl⟩ := List.mem_map.mp ha
      have hm : idMatches (assignedId d g) it = false := by
        have := hex it hit
        simpa using this
      unfold idMatches at hm
      simp [idsOf, mkCreated_id, hm]
    have h' : nodupKeys (idsOf st.data) = true := h
    rw [h', h2]
    simp [idsOf, nodupKeys]
  · -- update replaces a record in place with one carrying the same id
    intro idv ups now st' ns item hu
    obtain ⟨i, r, hf, hitem, hst, -, -⟩ := update_ok hu
    obtain ⟨hget, hmatch⟩ := findByIdIdx_spec hf
    subst hst
    unfold nodupIds
    show nodupKeys (idsOf (st.data.set i item)) = true
    rw [idsOf_set, hitem, mkUpdated_id]
    have hkey : (idsOf st.data)[i]? = some (some idv) := by
      unfold idsOf
      rw [List.getElem?_map, hget]
      simp [idMatches_getField hmatch]
    rw [set_getElem_self _ _ _ hkey]
    exact h
  · -- delete removes one record: a sublist of the ids
    intro idv
    unfold delete
    cases hf : findByIdIdx idv st.data with
    | none => exact h
    | some p =>
        obtain ⟨i, r⟩ := p
        show nodupIds (st.data.eraseIdx i) = true
        unfold nodupIds idsOf at h ⊢
        exact nodupKeys_sublist ((List.eraseIdx_sublist st.data i).map _) h
  · -- clear empties the store
    rfl
  · -- bulkUpdate: re-stamping updatedAt keeps each id
    intro items now hitems
    unfold bulkUpdate
    cases hb : bulkUpdateBody validate st items now with
    | error e => exact h
    | ok p =>
        obtain ⟨st', ns⟩ := p
        unfold bulkUpdateBody at hb
        cases hs : stampAll validate st now items with
        | error e => rw [hs] at hb; simp at hb
        | ok out =>
            rw [hs] at hb
            simp only [Except.ok.injEq, Prod.mk.injEq] at hb
            obtain ⟨hst, -⟩ := hb
            show nodupIds st'.data = true
            rw [← hst]
            show nodupIds out = true
            rw [stampAll_ok hs]
            unfold nodupIds idsOf at hitems ⊢
            rw [List.map_map]
            have : (fun it => getField it "id") ∘
                (fun item => setField item "updatedAt" (Val.vstr now))
                = fun it => getField it "id" := by
              funext it
              exact getField_setField_ne it (Val.vstr now) (by decide)
            rw [this]
            exact hitems
  · -- import: merge=false installs the incoming records; merge=true appends
    -- exactly the incoming records whose id clashes with no existing one
    intro incoming merge hin
    unfold importOp
    cases merge with
    | false => exact hin
    | true =>
        show nodupIds (st.data ++ incoming.filter _) = true
        unfold nodupIds
        rw [idsOf_append, nodupKeys_append]
        have hsub : nodupKeys (idsOf (incoming.filter (fun item =>
            !(st.data.any (fun ex =>
              strictEqOpt (getField ex "id") (getField item "id")))))) = true := by
          exact nodupKeys_sublist ((List.filter_sublist incoming).map _) hin
        have hcross : (idsOf st.data).all (fun a =>
            !((idsOf (incoming.filter (fun item =>
              !(st.data.any (fun ex =>
                strictEqOpt (getField ex "id") (getField item "id")))))).any
                (strictEqOpt a))) = true := by
          rw [List.all_eq_true]
          intro a ha
          obtain ⟨ex, hex, rfl⟩ := List.mem_map.mp ha
          simp only [Bool.not_eq_true', List.any_eq_false]
          intro b hb
          obtain ⟨item, hitem, rfl⟩ := List.mem_map.mp hb
          obtain ⟨-, hkeep⟩ := List.mem_filter.mp hitem
          rw [Bool.not_eq_true', List.any_eq_false] at hkeep
          simpa using hkeep ex hex
        have h' : nodupKeys (idsOf st.data) = true := h
        rw [h', hsub, hcross]
        rfl

/-- **C1**, witness for the amended theorem: a duplicate-free store and a
duplicate-free `bulkUpdate` argument, for which the invariant is preserved. -/
theorem c1_witness :
    nodupIds (bulkUpdate baseValidate
      (Store.mk "s" true [[("id", Val.vstr "a")]] [])
      [[("id", Val.vstr "b")], [("id", Val.vstr "c")]] "t").1.data = true :=
  (c1_unique_ids_preserved baseValidate
      (Store.mk "s" true [[("id", Val.vstr "a")]] []) (by decide)).2.2.2.2.1
    [[("id", Val.vstr "b")], [("id", Val.vstr "c")]] "t" (by decide)

/-- **C2**, counterexample.  The claim says a validation failure in any of
`create`, `update`, `bulkUpdate`, `import` is raised synchronously to the
caller (and leaves state unchanged).  `bulkUpdate`'s `catch` swallows the
error: its body throws a validation error, yet the call returns `false`
normally — no error reaches the caller (the store is indeed unchanged). -/
theorem c2_counterexample :
    bulkUpdateBody rejectAll (Store.mk "s" true [] []) [[("x", Val.vnum 1)]] "t"
      = .error (.validationErr "required field missing") ∧
    bulkUpdate rejectAll (Store.mk "s" true [] []) [[("x", Val.vnum 1)]] "t"
      = (Store.mk "s" true [] [], [], false) :=
  ⟨rfl, rfl⟩

/-- **C2** (amended): when `create`, `update` or `import` fails with a
validation, not-found, duplicate-id or import-format error, the error is
raised synchronously (the operation's result is that error) and the store is
exactly as before, with no notification emitted; when `bulkUpdate`'s body
fails with a validation error the store is likewise unchanged and nothing is
notified, but the error is caught and converted to a `false` return instead
of being raised. -/
theorem c2_failed_ops_leave_state_unchanged (validate : Validator) (st : Store) :
    (∀ d g n st' ns e, create validate st d g n = (st', ns, .error e) →
        st' = st ∧ ns = []) ∧
    (∀ idv ups now st' ns e, update validate st idv ups now = (st', ns, .error e) →
        st' = st ∧ ns = []) ∧
    (∀ arg merge st' ns e, importOp st arg merge = (st', ns, .error e) →
        st' = st ∧ ns = []) ∧
    (∀ items now e, bulkUpdateBody validate st items now = .error e →
        bulkUpdate validate st items now = (st, [], false)) := by
  refine ⟨?_, ?_, ?_, ?_⟩
  · intro d g n st' ns e hc
    exact create_error_rollback hc
  · intro idv ups now st' ns e hu
    exact update_error_rollback hu
  · intro arg merge st' ns e hi
    cases arg with
    | nullish =>
        simp only [importOp, Prod.mk.injEq] at hi
        exact ⟨hi.1.symm, hi.2.1.symm⟩
    | noArray =>
        simp only [importOp, Prod.mk.injEq] at hi
        exact ⟨hi.1.symm, hi.2.1.symm⟩
    | records incoming => simp [importOp] at hi
  · intro items now e hb
    unfold bulkUpdate
    rw [hb]

/-- **C2**, witness: a rejecting validation rule makes `bulkUpdate`'s body
fail; by the theorem the call returns the untouched store and `false`. -/
theorem c2_witness :
    bulkUpdate rejectAll (Store.mk "s" true [[("id", Val.vstr "a")]] []) [[]] "t"
      = (Store.mk "s" true [[("id", Val.vstr "a")]] [], [], false) :=
  (c2_failed_ops_leave_state_unchanged rejectAll
      (Store.mk "s" true [[("id", Val.vstr "a")]] [])).2.2.2 [[]] "t"
    (.validationErr "required field missing") rfl

/-- **C3**, counterexample.  The claim says `update` never replaces the
existing record's `createdAt`.  `update` builds
`{...existing, ...updates, id, updatedAt}` — the partial's fields win and only
`id`/`updatedAt` are re-pinned — so a `createdAt` in the partial does replace
the stored one: here `"c0"` becomes `"HACK"`. -/
theorem c3_counterexample :
    (update baseValidate
        (Store.mk "s" true [[("id", Val.vstr "a"), ("createdAt", Val.vstr "c0")]] [])
        (.vstr "a") [("createdAt", Val.vstr "HACK")] "t").2.2
      = .ok [("id", Val.vstr "a"), ("createdAt", Val.vstr "HACK"), ("updatedAt", Val.vstr "t")] ∧
    getField [("id", Val.vstr "a"), ("createdAt", Val.vstr "HACK"), ("updatedAt", Val.vstr "t")]
        "createdAt" = some (Val.vstr "HACK") ∧
    getField [("id", Val.vstr "a"), ("createdAt", Val.vstr "c0")] "createdAt"
      = some (Val.vstr "c0") ∧
    some (Val.vstr "HACK") ≠ some (Val.vstr "c0") := by
  refine ⟨rfl, rfl, rfl, by decide⟩

/-- **C3** (amended): `create` stamps `createdAt` with the current time even
when the caller supplied one; `update` protects only `id` and `updatedAt` — a
`createdAt` binding in the partial (its last binding, as in a JS spread)
replaces the stored record's `createdAt`, and only in its absence is the
stored value kept. -/
theorem c3_createdAt_assignment (validate : Validator) (st : Store) :
    (∀ d g n st' ns item, create validate st d g n = (st', ns, .ok item) →
        getField item "createdAt" = some (.vstr n)) ∧
    (∀ idv ups now st' ns item i r,
        update validate st idv ups now = (st', ns, .ok item) →
        findByIdIdx idv st.data = some (i, r) →
        getField item "createdAt"
          = (getField ups.reverse "createdAt").or (getField r "createdAt")) := by
  constructor
  · intro d g n st' ns item hc
    obtain ⟨rfl, -, -, -, -⟩ := create_ok hc
    exact mkCreated_createdAt d g n
  · intro idv ups now st' ns item i r hu hf
    obtain ⟨i', r', hf', hitem, -, -, -⟩ := update_ok hu
    rw [hf'] at hf
    simp only [Option.some.injEq, Prod.mk.injEq] at hf
    obtain ⟨-, rfl⟩ := hf
    rw [hitem]
    exact mkUpdated_other r' ups idv now (by decide) (by decide)

/-- **C3**, witness: a `create` whose input carries a bogus `createdAt` still
gets the store's stamp `"t"`. -/
theorem c3_witness :
    getField [("createdAt", Val.vstr "t"), ("id", Val.vstr "g"), ("updatedAt", Val.vstr "t")]
      "createdAt" = some (Val.vstr "t") :=
  (c3_createdAt_assignment baseValidate (Store.mk "s" true [] [])).1
    [("createdAt", Val.vstr "bogus")] "g" "t"
    (Store.mk "s" true
      [[("createdAt", Val.vstr "t"), ("id", Val.vstr "g"), ("updatedAt", Val.vstr "t")]] [])
    [⟨"create", .one [("createdAt", Val.vstr "t"), ("id", Val.vstr "g"),
        ("updatedAt", Val.vstr "t")], "s"⟩]
    [("createdAt", Val.vstr "t"), ("id", Val.vstr "g"), ("updatedAt", Val.vstr "t")]
    rfl

/-- **C4**: importing a store's own export with `merge = false` into an empty
target reproduces the source's record sequence exactly (same records, same
order), and the import succeeds. -/
theorem c4_export_import_roundtrip (src tgt : Store) (version exportedAt : String)
    (_h : tgt.data = []) :
    (importOp tgt (exportOp src version exportedAt).asArg false).1.data = src.data ∧
    (importOp tgt (exportOp src version exportedAt).asArg false).2.2 = .ok () := by
  exact ⟨rfl, rfl⟩

/-- **C4**, witness. -/
theorem c4_witness :
    (importOp (Store.mk "t" true [] [])
        (exportOp (Store.mk "s" true [[("id", Val.vstr "a"), ("x", Val.vnum 1)]] [])
          "2.0.0" "now").asArg false).1.data
      = [[("id", Val.vstr "a"), ("x", Val.vnum 1)]] :=
  (c4_export_import_roundtrip
      (Store.mk "s" true [[("id", Val.vstr "a"), ("x", Val.vnum 1)]] [])
      (Store.mk "t" true [] []) "2.0.0" "now" rfl).1

/-- **C5**: a merge import leaves every record already in the store unchanged
(the whole original sequence is an unchanged prefix, position by position) and
appends exactly the incoming records whose `id` is not already present, in
their incoming order. -/
theorem c5_merge_import_appends_only_new (st : Store) (incoming : List Item) :
    (importOp st (.records incoming) true).1.data.take st.data.length = st.data ∧
    (∀ i, i < st.data.length →
        (importOp st (.records incoming) true).1.data[i]? = st.data[i]?) ∧
    (importOp st (.records incoming) true).1.data.drop st.data.length
      = incoming.filter (fun item =>
          !(st.data.any (fun ex => strictEqOpt (getField ex "id") (getField item "id")))) ∧
    (importOp st (.records incoming) true).2.2 = .ok () := by
  refine ⟨?_, ?_, ?_, rfl⟩
  · show (st.data ++ _).take st.data.length = st.data
    exact List.take_left st.data _
  · intro i hi
    show (st.data ++ _)[i]? = st.data[i]?
    exact List.getElem?_append_left hi
  · show (st.data ++ _).drop st.data.length = _
    exact List.drop_left st.data _

/-- **C5**, witness: a store holding id `a`, importing ids `a` (dropped,
record `a` keeps its fields) and `b` (appended). -/
theorem c5_witness :
    (importOp (Store.mk "s" true [[("id", Val.vstr "a"), ("x", Val.vnum 1)]] [])
        (.records [[("id", Val.vstr "a"), ("x", Val.vnum 99)], [("id", Val.vstr "b")]])
        true).1.data[0]?
      = some [("id", Val.vstr "a"), ("x", Val.vnum 1)] :=
  (c5_merge_import_appends_only_new
      (Store.mk "s" true [[("id", Val.vstr "a"), ("x", Val.vnum 1)]] [])
      [[("id", Val.vstr "a"), ("x", Val.vnum 99)], [("id", Val.vstr "b")]]).2.1
    0 (by decide)

/-- **C6**: `create` with a caller-supplied (truthy) `id` already present in
the store throws the duplicate-id error, emits no notification, and leaves the
store — in particular its record count — unchanged.  (`BaseStorage`'s own
`validate` accepts everything; validation therefore passes first and the
duplicate check throws.) -/
theorem c6_create_duplicate_id (st : Store) (d : Item) (g n : String) (idv : Val)
    (hid : getField d "id" = some idv) (htr : truthy (some idv) = true)
    (hdup : existsId st idv = true) :
    create baseValidate st d g n = (st, [], .error (.duplicateId idv)) ∧
    count (create baseValidate st d g n).1 = count st := by
  have hassign : assignedId d g = idv := by
    unfold assignedId
    rw [hid, if_pos htr]
    rfl
  have hval : _validateData baseValidate st d = none := by
    unfold _validateData baseValidate
    cases st.validation <;> rfl
  have hmain : create baseValidate st d g n = (st, [], .error (.duplicateId idv)) := by
    unfold create
    rw [hval]
    simp only
    rw [mkCreated_id, hassign]
    have hsome : (getById st idv).isSome = true := by
      rw [getById_isSome_iff_existsId]
      exact hdup
    simp [hsome]
  exact ⟨hmain, by rw [hmain]⟩

/-- **C6**, witness. -/
theorem c6_witness :
    create baseValidate (Store.mk "s" true [[("id", Val.vstr "a")]] [])
        [("id", Val.vstr "a"), ("x", Val.vnum 2)] "g" "t"
      = (Store.mk "s" true [[("id", Val.vstr "a")]] [], [],
         .error (.duplicateId (Val.vstr "a"))) :=
  (c6_create_duplicate_id (Store.mk "s" true [[("id", Val.vstr "a")]] [])
      [("id", Val.vstr "a"), ("x", Val.vnum 2)] "g" "t" (Val.vstr "a")
      rfl (by decide) (by decide)).1

/-- **C7**: a successful `update(r.id, {})` sets `updatedAt` to the current
time (so it changes whenever the stored stamp differs from it) and leaves
every other field of the found record `r` unchanged; and for any partial, the
updated record's `id` equals `r`'s `id`, even when the partial carries a
different `id`. -/
theorem c7_update_empty_partial_and_id_immutable (st : Store) (idv : Val)
    (i : Nat) (r : Item) (hf : findByIdIdx idv st.data = some (i, r)) :
    (∀ now st' ns item, update baseValidate st idv [] now = (st', ns, .ok item) →
        getField item "updatedAt" = some (.vstr now) ∧
        (∀ k, k ≠ "updatedAt" → getField item k = getField r k) ∧
        (getField r "updatedAt" ≠ some (.vstr now) →
          getField item "updatedAt" ≠ getField r "updatedAt")) ∧
    (∀ ups now st' ns item, update baseValidate st idv ups now = (st', ns, .ok item) →
        getField item "id" = getField r "id") := by
  obtain ⟨-, hmatch0⟩ := findByIdIdx_spec hf
  have hrid : getField r "id" = some idv := idMatches_getField hmatch0
  constructor
  · intro now st' ns item hu
    obtain ⟨i', r', hf', hitem, -, -, -⟩ := update_ok hu
    rw [hf'] at hf
    simp only [Option.some.injEq, Prod.mk.injEq] at hf
    obtain ⟨-, rfl⟩ := hf
    subst hitem
    refine ⟨mkUpdated_updatedAt r' [] idv now, ?_, ?_⟩
    · intro k hk
      by_cases hkid : k = "id"
      · subst hkid
        rw [mkUpdated_id, hrid]
      · rw [mkUpdated_other r' [] idv now hkid hk]
        rfl
    · intro hne
      rw [mkUpdated_updatedAt r' [] idv now]
      exact fun hcontra => hne hcontra.symm
  · intro ups now st' ns item hu
    obtain ⟨i', r', hf', hitem, -, -, -⟩ := update_ok hu
    rw [hf'] at hf
    simp only [Option.some.injEq, Prod.mk.injEq] at hf
    obtain ⟨-, rfl⟩ := hf
    subst hitem
    rw [mkUpdated_id, hrid]

/-- **C7**, witness: on the record `{id: "a", x: 5}`, an empty-partial update
stamps `updatedAt` and keeps `x`; a partial `{id: "other"}` cannot change the
id. -/
theorem c7_witness :
    getField [("id", Val.vstr "a"), ("x", Val.vnum 5), ("updatedAt", Val.vstr "t2")] "x"
      = getField [("id", Val.vstr "a"), ("x", Val.vnum 5)] "x" ∧
    getField [("id", Val.vstr "a"), ("x", Val.vnum 5), ("updatedAt", Val.vstr "t2")] "id"
      = getField [("id", Val.vstr "a"), ("x", Val.vnum 5)] "id" :=
  have H := c7_update_empty_partial_and_id_immutable
    (Store.mk "s" true [[("id", Val.vstr "a"), ("x", Val.vnum 5)]] [])
    (Val.vstr "a") 0 [("id", Val.vstr "a"), ("x", Val.vnum 5)] rfl
  ⟨(H.1 "t2"
      (Store.mk "s" true
        [[("id", Val.vstr "a"), ("x", Val.vnum 5), ("updatedAt", Val.vstr "t2")]] [])
      [⟨"update", .one [("id", Val.vstr "a"), ("x", Val.vnum 5), ("updatedAt", Val.vstr "t2")], "s"⟩]
      [("id", Val.vstr "a"), ("x", Val.vnum 5), ("updatedAt", Val.vstr "t2")]
      rfl).2.1 "x" (by decide),
   H.2 [("id", Val.vstr "other")] "t2"
      (Store.mk "s" true
        [[("id", Val.vstr "a"), ("x", Val.vnum 5), ("updatedAt", Val.vstr "t2")]] [])
      [⟨"update", .one [("id", Val.vstr "a"), ("x", Val.vnum 5), ("updatedAt", Val.vstr "t2")], "s"⟩]
      [("id", Val.vstr "a"), ("x", Val.vnum 5), ("updatedAt", Val.vstr "t2")]
      rfl⟩

/-- **C9**: with one subscribed listener, a successful `create` emits exactly
one notification — `("create", created record, storageKey)` — and the listener
is invoked exactly once, with exactly those arguments, as part of the `create`
call itself (the notify step runs before `create` returns). -/
theorem c9_create_notifies_listener_once (validate : Validator) (st : Store) (l : Nat)
    (d : Item) (g n : String) (st' : Store) (ns : List Notif) (item : Item)
    (hl : st.listeners = [l])
    (hs : create validate st d g n = (st', ns, .ok item)) :
    ns = [⟨"create", .one item, st.storageKey⟩] ∧
    _notifyListeners st ns = [(l, ⟨"create", .one item, st.storageKey⟩)] := by
  obtain ⟨-, -, hns, -, -⟩ := create_ok hs
  subst hns
  refine ⟨rfl, ?_⟩
  unfold _notifyListeners
  rw [hl]
  rfl

/-- **C9**, witness: listener `7` subscribed, `create` succeeds, one
invocation with the created record and the store name. -/
theorem c9_witness :
    _notifyListeners (Store.mk "s" true [] [7])
        [⟨"create", .one [("id", Val.vstr "g"), ("createdAt", Val.vstr "t"),
            ("updatedAt", Val.vstr "t")], "s"⟩]
      = [(7, ⟨"create", .one [("id", Val.vstr "g"), ("createdAt", Val.vstr "t"),
            ("updatedAt", Val.vstr "t")], "s"⟩)] :=
  (c9_create_notifies_listener_once baseValidate (Store.mk "s" true [] [7]) 7
      [] "g" "t"
      (Store.mk "s" true [[("id", Val.vstr "g"), ("createdAt", Val.vstr "t"),
          ("updatedAt", Val.vstr "t")]] [7])
      [⟨"create", .one [("id", Val.vstr "g"), ("createdAt", Val.vstr "t"),
          ("updatedAt", Val.vstr "t")], "s"⟩]
      [("id", Val.vstr "g"), ("createdAt", Val.vstr "t"), ("updatedAt", Val.vstr "t")]
      rfl rfl).2

/-- **C10**: a successful `update` replaces the found record in place: the
sequence keeps its length, the id sequence (hence `getAll`'s order of ids) is
unchanged, the updated record sits at the found record's index, and every
other index holds exactly the record it held before. -/
theorem c10_update_preserves_positions (validate : Validator) (st : Store) (idv : Val)
    (ups : Item) (now : String) (st' : Store) (ns : List Notif) (item : Item)
    (hs : update validate st idv ups now = (st', ns, .ok item)) :
    idsOf (getAll st') = idsOf (getAll st) ∧
    (getAll st').length = (getAll st).length ∧
    ∃ i r, findByIdIdx idv st.data = some (i, r) ∧
      getAll st' = (getAll st).set i item ∧
      (∀ j, j ≠ i → (getAll st')[j]? = (getAll st)[j]?) := by
  obtain ⟨i, r, hf, hitem, hst, -, -⟩ := update_ok hs
  obtain ⟨hget, hmatch⟩ := findByIdIdx_spec hf
  have hiid : getField item "id" = some idv := by
    rw [hitem]; exact mkUpdated_id r ups idv now
  subst hst
  refine ⟨?_, ?_, i, r, hf, rfl, ?_⟩
  · show idsOf (st.data.set i item) = idsOf st.data
    rw [idsOf_set, hiid]
    have hkey : (idsOf st.data)[i]? = some (some idv) := by
      unfold idsOf
      rw [List.getElem?_map, hget]
      simp [idMatches_getField hmatch]
    exact set_getElem_self _ _ _ hkey
  · show (st.data.set i item).length = st.data.length
    exact List.length_set st.data i item
  · intro j hj
    show (st.data.set i item)[j]? = st.data[j]?
    exact List.getElem?_set_ne (fun hij => hj hij.symm)

/-- **C10**, witness: updating the first of two records keeps both positions
and the id order. -/
theorem c10_witness :
    idsOf (getAll (Store.mk "s" true
        [[("id", Val.vstr "a"), ("x", Val.vnum 9), ("updatedAt", Val.vstr "t")],
         [("id", Val.vstr "b")]] []))
      = idsOf (getAll (Store.mk "s" true
          [[("id", Val.vstr "a"), ("x", Val.vnum 1)], [("id", Val.vstr "b")]] [])) :=
  (c10_update_preserves_positions baseValidate
      (Store.mk "s" true [[("id", Val.vstr "a"), ("x", Val.vnum 1)], [("id", Val.vstr "b")]] [])
      (Val.vstr "a") [("x", Val.vnum 9)] "t"
      (Store.mk "s" true
        [[("id", Val.vstr "a"), ("x", Val.vnum 9), ("updatedAt", Val.vstr "t")],
         [("id", Val.vstr "b")]] [])
      [⟨"update", .one [("id", Val.vstr "a"), ("x", Val.vnum 9), ("updatedAt", Val.vstr "t")], "s"⟩]
      [("id", Val.vstr "a"), ("x", Val.vnum 9), ("updatedAt", Val.vstr "t")]
      rfl).1

/-- **C8**: the persistence encoding is a lossless, deterministic round trip.
`_decompress (_compress x)` recovers exactly the record sequence `x` (as the
JS array value it denotes), for every valid record sequence — one whose
strings are control-character free and whose numbers are integers, the
fragment the modelled codec covers; and re-encoding the decoded value
(`encode(decode(y))` for `y` an encoded form) reproduces the encoded string
exactly.  Both directions are plain functions, hence deterministic. -/
theorem c8_compress_decompress_roundtrip (data : List Item)
    (h : validRecords data = true) :
    _decompress (_compress data) = recordsVal data ∧
    jsonStringify (_decompress (_compress data)) = _compress data := by
  have hv : validVal (recordsVal data) = true := h
  have hmain : jsonParse (_compress data) = some (recordsVal data) := by
    unfold _compress jsonStringify jsonParse
    show (match parseVal ((encVal (recordsVal data)).length + 1)
        (encVal (recordsVal data)) with
      | some (v, []) => some v
      | _ => none) = some (recordsVal data)
    have hfu : fuelVal (recordsVal data) ≤ (encVal (recordsVal data)).length + 1 := by
      have := fuelVal_le (recordsVal data)
      omega
    have hrt := rt_val (recordsVal data) ((encVal (recordsVal data)).length + 1) []
      hv hfu (by rfl)
    rw [List.append_nil] at hrt
    rw [hrt]
  constructor
  · unfold _decompress
    rw [hmain]
    rfl
  · unfold _decompress
    rw [hmain]
    rfl

/-- **C8**, witness: a two-record sequence with a string id, a negative
number, a boolean, a nested array with `null`, and an escape-needing string
value survives the round trip. -/
theorem c8_witness :
    _decompress (_compress [[("id", Val.vstr "a"), ("n", Val.vnum (-3))],
        [("flag", Val.vbool true), ("z", Val.varr [Val.vnull, Val.vstr "q\"w"])]])
      = recordsVal [[("id", Val.vstr "a"), ("n", Val.vnum (-3))],
        [("flag", Val.vbool true), ("z", Val.varr [Val.vnull, Val.vstr "q\"w"])]] :=
  (c8_compress_decompress_roundtrip
      [[("id", Val.vstr "a"), ("n", Val.vnum (-3))],
       [("flag", Val.vbool true), ("z", Val.varr [Val.vnull, Val.vstr "q\"w"])]]
      (by decide)).1

end OCM
